import Mathlib

/-! Shallow embedding of the jwt-go repository core (hmac.go, claims.go,
token.go and the error/bitmask file) and proofs of the specification
claims about it.

Conventions of the embedding:
* Go strings and byte slices are modelled as `List Char` and `List Nat`
  (byte values, with explicit `< 256` bounds where they matter).
* Go functions returning `(T, error)` become `T × Option GoError` or
  `Option T`; a `nil` error is `none`.
* The Go standard library base64 codec (`encoding/base64`, URL alphabet,
  padding character `=`, non-strict mode, CR/LF ignored on decode) is
  embedded faithfully, since `EncodeSegment`/`DecodeSegment` delegate to it.
-/

namespace JwtGo

/-- The URL-safe base64 alphabet used by Go `base64.URLEncoding`. -/
def b64Alphabet : List Char :=
  ['A','B','C','D','E','F','G','H','I','J','K','L','M','N','O','P','Q','R',
   'S','T','U','V','W','X','Y','Z','a','b','c','d','e','f','g','h','i','j',
   'k','l','m','n','o','p','q','r','s','t','u','v','w','x','y','z','0','1',
   '2','3','4','5','6','7','8','9','-','_']

/-- Character of the URL-safe alphabet at a 6-bit index. -/
def alpha (n : Nat) : Char := b64Alphabet.getD n 'A'

/-- Decode map of `base64.URLEncoding`: the 6-bit value of an alphabet
character, `none` for every character outside the 64-character alphabet. -/
def b64Index (c : Char) : Option Nat :=
  let n := c.toNat
  if 65 ≤ n ∧ n ≤ 90 then some (n - 65)
  else if 97 ≤ n ∧ n ≤ 122 then some (n - 97 + 26)
  else if 48 ≤ n ∧ n ≤ 57 then some (n - 48 + 52)
  else if n = 45 then some 62
  else if n = 95 then some 63
  else none

/-- Go `base64.URLEncoding.EncodeToString`: 3-byte groups become 4 alphabet
characters; a trailing 1-byte group becomes 2 characters plus two pads and a
trailing 2-byte group 3 characters plus one pad. -/
def b64Encode : List Nat → List Char
  | [] => []
  | [b1] => [alpha (b1 / 4), alpha (b1 % 4 * 16), '=', '=']
  | [b1, b2] => [alpha (b1 / 4), alpha (b1 % 4 * 16 + b2 / 16), alpha (b2 % 16 * 4), '=']
  | b1 :: b2 :: b3 :: rest =>
      alpha (b1 / 4) :: alpha (b1 % 4 * 16 + b2 / 16) ::
      alpha (b2 % 16 * 4 + b3 / 64) :: alpha (b3 % 64) :: b64Encode rest

/-- Unpadded part of `b64Encode` (proof helper). -/
def encCore : List Nat → List Char
  | [] => []
  | [b1] => [alpha (b1 / 4), alpha (b1 % 4 * 16)]
  | [b1, b2] => [alpha (b1 / 4), alpha (b1 % 4 * 16 + b2 / 16), alpha (b2 % 16 * 4)]
  | b1 :: b2 :: b3 :: rest =>
      alpha (b1 / 4) :: alpha (b1 % 4 * 16 + b2 / 16) ::
      alpha (b2 % 16 * 4 + b3 / 64) :: alpha (b3 % 64) :: encCore rest

/-- Number of `=` pad characters `b64Encode` appends (proof helper). -/
def padCount : List Nat → Nat
  | [] => 0
  | [_] => 2
  | [_, _] => 1
  | _ :: _ :: _ :: rest => padCount rest

/-- One-quantum-at-a-time decoding loop of Go `base64.URLEncoding.Decode`
on an input already stripped of CR/LF: four alphabet characters yield three
bytes; a final quantum `xy==` yields one byte and `xyz=` two bytes
(non-strict mode ignores leftover bits); misplaced padding, characters
outside the alphabet, data after a padded quantum, and a trailing
incomplete quantum are errors. -/
def b64DecodeChunks : List Char → Option (List Nat)
  | [] => some []
  | a :: b :: c :: d :: rest =>
    match b64Index a, b64Index b with
    | some x, some y =>
      if c = '=' then
        if d = '=' ∧ rest = [] then some [x * 4 + y / 16] else none
      else
        match b64Index c with
        | some z =>
          if d = '=' then
            if rest = [] then some [x * 4 + y / 16, y % 16 * 16 + z / 4] else none
          else
            match b64Index d with
            | some w =>
              (b64DecodeChunks rest).map
                (fun bs => (x * 4 + y / 16) :: (y % 16 * 16 + z / 4) :: (z % 4 * 64 + w) :: bs)
            | none => none
        | none => none
    | _, _ => none
  | _ => none

/-- Go's base64 decoder ignores the newline characters CR and LF wherever
they occur in the input. -/
def stripNewlines (s : List Char) : List Char :=
  s.filter (fun c => c != '\n' && c != '\r')

/-- Go `base64.URLEncoding.DecodeString`. -/
def base64URLDecode (s : List Char) : Option (List Nat) :=
  b64DecodeChunks (stripNewlines s)

/-- Go `strings.TrimRight(s, "=")`: remove every trailing `=`. -/
def trimEqRight (s : List Char) : List Char :=
  (s.reverse.dropWhile (fun c => c == '=')).reverse

/-- `EncodeSegment` from token.go: JWT-specific base64url encoding with the
padding stripped. -/
def EncodeSegment (seg : List Nat) : List Char :=
  trimEqRight (b64Encode seg)

/-- Padding `DecodeSegment` re-appends: if the length is not a multiple of
four, `4 - len % 4` many `=` characters. -/
def padFor (s : List Char) : List Char :=
  if s.length % 4 > 0 then List.replicate (4 - s.length % 4) '=' else []

/-- `DecodeSegment` from token.go: re-pad to a multiple of four characters,
then decode with the URL-safe base64 codec. -/
def DecodeSegment (seg : List Char) : Option (List Nat) :=
  base64URLDecode (seg ++ padFor seg)

/-- Go error values reachable from the embedded code. `invalidKeyType`,
`hashUnavailable` and `signatureInvalid` are the package error variables;
`corruptInput` stands for the `base64.CorruptInputError` values produced by
the segment codec; `external` stands for error values produced by external
dependencies such as the JSON marshaller. -/
inductive GoError where
  | invalidKeyType
  | hashUnavailable
  | signatureInvalid
  | corruptInput
  | external (tag : Nat)
deriving DecidableEq

/-- Model of the Go `interface{}` key argument: either a byte slice, or any
other value (distinguished by a tag). -/
inductive Key where
  | bytes (b : List Nat)
  | other (tag : Nat)
deriving DecidableEq

/-- `SigningMethodHMAC` from hmac.go. The Go field `Hash : crypto.Hash`
is modelled by what the code observes of it: whether the hash is available
(`Hash.Available()`), and the HMAC digest function it induces
(`hmac.New(Hash.New, key)` applied to a message). -/
structure SigningMethodHMAC where
  Name : String
  hashAvailable : Bool
  mac : List Nat → List Char → List Nat

/-- `SigningMethodHMAC.Alg` from hmac.go. -/
def SigningMethodHMAC.Alg (m : SigningMethodHMAC) : String := m.Name

/-- `SigningMethodHMAC.Sign` from hmac.go: requires a byte-slice key and an
available hash, then MACs the signing string and encodes the digest as a
segment. Returns the Go pair `(string, error)`. -/
def SigningMethodHMAC.Sign (m : SigningMethodHMAC) (signingString : List Char)
    (key : Key) : List Char × Option GoError :=
  match key with
  | .bytes keyBytes =>
      if m.hashAvailable then (EncodeSegment (m.mac keyBytes signingString), none)
      else ([], some .hashUnavailable)
  | .other _ => ([], some .invalidKeyType)

/-- `SigningMethodHMAC.Verify` from hmac.go: checks the key type, decodes
the signature segment, checks hash availability, then compares the decoded
signature with the recomputed MAC (`hmac.Equal`, byte-slice equality).
A `none` result is Go's `nil` error. -/
def SigningMethodHMAC.Verify (m : SigningMethodHMAC) (signingString signature : List Char)
    (key : Key) : Option GoError :=
  match key with
  | .other _ => some .invalidKeyType
  | .bytes keyBytes =>
      match DecodeSegment signature with
      | none => some .corruptInput
      | some sig =>
          if !m.hashAvailable then some .hashUnavailable
          else if sig = m.mac keyBytes signingString then none
          else some .signatureInvalid

/-- Messages stored in `ValidationError.Inner` by `StandardClaims.Valid`.
`expiredBy` carries the delta `now - exp` of the Go message
"token is expired by %v". -/
inductive Cause where
  | expiredBy (delta : Int)
  | usedBeforeIssued
  | notValidYet
deriving DecidableEq

/-- Bitmask constants from the error file (`1 << iota`). -/
def ValidationErrorMalformed : Nat := 1

def ValidationErrorUnverifiable : Nat := 2

def ValidationErrorSignatureInvalid : Nat := 4

def ValidationErrorAudience : Nat := 8

def ValidationErrorExpired : Nat := 16

def ValidationErrorIssuedAt : Nat := 32

def ValidationErrorIssuer : Nat := 64

def ValidationErrorNotValidYet : Nat := 128

def ValidationErrorId : Nat := 256

def ValidationErrorClaimsInvalid : Nat := 512

/-- `ValidationError` from the error file: the inner cause (modelled by the
message it carries), the error bitfield, and the plain text message. -/
structure ValidationError where
  Inner : Option Cause
  Errors : Nat
  text : String
deriving DecidableEq

/-- `ValidationError.valid` from the error file: no bit set. -/
def ValidationError.valid (e : ValidationError) : Bool := e.Errors == 0

/-- `verifyAud` from claims.go; `subtle.ConstantTimeCompare` of two byte
slices returns nonzero exactly when they are equal. -/
def verifyAud (aud cmp : String) (required : Bool) : Bool :=
  if aud = "" then !required else decide (aud = cmp)

/-- `verifyExp` from claims.go. -/
def verifyExp (exp now : Int) (required : Bool) : Bool :=
  if exp = 0 then !required else decide (now ≤ exp)

/-- `verifyIat` from claims.go. -/
def verifyIat (iat now : Int) (required : Bool) : Bool :=
  if iat = 0 then !required else decide (now ≥ iat)

/-- `verifyIss` from claims.go. -/
def verifyIss (iss cmp : String) (required : Bool) : Bool :=
  if iss = "" then !required else decide (iss = cmp)

/-- `verifyNbf` from claims.go. -/
def verifyNbf (nbf now : Int) (required : Bool) : Bool :=
  if nbf = 0 then !required else decide (now ≥ nbf)

/-- `StandardClaims` from claims.go (int64 timestamps as `Int`). -/
structure StandardClaims where
  Audience : String
  ExpiresAt : Int
  Id : String
  IssuedAt : Int
  Issuer : String
  NotBefore : Int
  Subject : String
deriving DecidableEq

/-- `StandardClaims.VerifyAudience` from claims.go. -/
def StandardClaims.VerifyAudience (c : StandardClaims) (cmp : String) (req : Bool) : Bool :=
  verifyAud c.Audience cmp req

/-- `StandardClaims.VerifyExpiresAt` from claims.go. -/
def StandardClaims.VerifyExpiresAt (c : StandardClaims) (cmp : Int) (req : Bool) : Bool :=
  verifyExp c.ExpiresAt cmp req

/-- `StandardClaims.VerifyIssuedAt` from claims.go. -/
def StandardClaims.VerifyIssuedAt (c : StandardClaims) (cmp : Int) (req : Bool) : Bool :=
  verifyIat c.IssuedAt cmp req

/-- `StandardClaims.VerifyIssuer` from claims.go. -/
def StandardClaims.VerifyIssuer (c : StandardClaims) (cmp : String) (req : Bool) : Bool :=
  verifyIss c.Issuer cmp req

/-- `StandardClaims.VerifyNotBefore` from claims.go. -/
def StandardClaims.VerifyNotBefore (c : StandardClaims) (cmp : Int) (req : Bool) : Bool :=
  verifyNbf c.NotBefore cmp req

/-- `StandardClaims.Valid` from claims.go. The Go code reads the current
time from the overridable global `TimeFunc`; that injected clock value is
the explicit parameter `now` (seconds since epoch, `TimeFunc().Unix()`).
Each failing check ORs its bit into the accumulator and overwrites `Inner`;
the result is `nil` iff no bit is set. -/
def StandardClaims.Valid (c : StandardClaims) (now : Int) : Option ValidationError :=
  let e0 : ValidationError := { Inner := none, Errors := 0, text := "" }
  let e1 :=
    if c.VerifyExpiresAt now false = false then
      { e0 with Inner := some (Cause.expiredBy (now - c.ExpiresAt)),
                Errors := e0.Errors ||| ValidationErrorExpired }
    else e0
  let e2 :=
    if c.VerifyIssuedAt now false = false then
      { e1 with Inner := some Cause.usedBeforeIssued,
                Errors := e1.Errors ||| ValidationErrorIssuedAt }
    else e1
  let e3 :=
    if c.VerifyNotBefore now false = false then
      { e2 with Inner := some Cause.notValidYet,
                Errors := e2.Errors ||| ValidationErrorNotValidYet }
    else e2
  if e3.valid then none else some e3

/-- The `SigningMethod` interface from the repository: an algorithm name
plus `Sign` and `Verify` capabilities (Go signatures `(string, error)` and
`error`). -/
structure SigningMethod where
  Alg : String
  sign : List Char → Key → List Char × Option GoError
  verify : List Char → List Char → Key → Option GoError

/-- `Token` from token.go. The header and claims are serialized by the
external JSON codec; what `SigningString` observes of them is the marshal
result, modelled by the fields `headerJSON` and `claimsJSON`
(`json.Marshal(t.Header)` and `json.Marshal(t.Claims)`). -/
structure Token where
  Raw : List Char
  Method : SigningMethod
  headerJSON : Except GoError (List Nat)
  claimsJSON : Except GoError (List Nat)
  Signature : List Char
  Valid : Bool

/-- `Token.SigningString` from token.go: marshal the header and the claims,
encode each as a segment, join with a dot; a marshal failure is returned
with an empty string. -/
def Token.SigningString (t : Token) : List Char × Option GoError :=
  match t.headerJSON with
  | .error e => ([], some e)
  | .ok hj =>
      match t.claimsJSON with
      | .error e => ([], some e)
      | .ok cj => (EncodeSegment hj ++ '.' :: EncodeSegment cj, none)

/-- `Token.SignedString` from token.go: compute the signing string, sign it
with the bound method, join the two with a dot; each failing step's error
is returned as-is with an empty string. -/
def Token.SignedString (t : Token) (key : Key) : List Char × Option GoError :=
  match t.SigningString with
  | (_, some e) => ([], some e)
  | (sstr, none) =>
      match t.Method.sign sstr key with
      | (_, some e) => ([], some e)
      | (sig, none) => (sstr ++ '.' :: sig, none)

/-- Concrete HMAC method used by witnesses: available hash, constant digest. -/
def hmacEx : SigningMethodHMAC :=
  { Name := "HS256", hashAvailable := true, mac := fun _ _ => [1, 2, 3] }

/-- Concrete signing method used by witnesses. -/
def methodEx : SigningMethod :=
  { Alg := "HS256",
    sign := fun _ _ => (['X'], none),
    verify := fun _ _ _ => none }

/-- Concrete token used by witnesses. -/
def tokenEx : Token :=
  { Raw := [], Method := methodEx, headerJSON := .ok [1], claimsJSON := .ok [2],
    Signature := [], Valid := false }

/-- Concrete claim set used by witnesses: at clock value 100 all three
temporal checks fail. -/
def claimsEx : StandardClaims :=
  { Audience := "", ExpiresAt := 50, Id := "", IssuedAt := 200, Issuer := "",
    NotBefore := 150, Subject := "" }

/-- The validation error `claimsEx.Valid 100` produces. -/
def vErrEx : ValidationError :=
  { Inner := some Cause.notValidYet, Errors := 176, text := "" }

/-- The validation error produced at clock value 100 by a claim set whose
only failing check is an expiration of 50. -/
def vErrExpOnly : ValidationError :=
  { Inner := some (Cause.expiredBy 50), Errors := 16, text := "" }

/-! Helper lemmas about the segment codec. -/

theorem idx_alpha_fin : ∀ i : Fin 64, b64Index (alpha i.val) = some i.val := by decide

theorem alpha_ne_fin : ∀ i : Fin 64, alpha i.val ≠ '=' ∧ alpha i.val ≠ '\n' ∧ alpha i.val ≠ '\r' := by
  decide

theorem b64Alphabet_length : b64Alphabet.length = 64 := by decide

theorem idx_alpha {n : Nat} (h : n < 64) : b64Index (alpha n) = some n :=
  idx_alpha_fin ⟨n, h⟩

theorem alpha_default {n : Nat} (h : ¬ n < 64) : alpha n = 'A' := by
  unfold alpha
  exact List.getD_eq_default _ _ (by rw [b64Alphabet_length]; omega)

theorem alpha_ne_eq (n : Nat) : alpha n ≠ '=' := by
  by_cases h : n < 64
  · exact (alpha_ne_fin ⟨n, h⟩).1
  · rw [alpha_default h]; decide

theorem alpha_ne_nl (n : Nat) : alpha n ≠ '\n' ∧ alpha n ≠ '\r' := by
  by_cases h : n < 64
  · exact (alpha_ne_fin ⟨n, h⟩).2
  · rw [alpha_default h]; exact ⟨by decide, by decide⟩

theorem b64Encode_eq : ∀ b : List Nat,
    b64Encode b = encCore b ++ List.replicate (padCount b) '='
  | [] => rfl
  | [_] => rfl
  | [_, _] => rfl
  | b1 :: b2 :: b3 :: rest => by
      simp only [b64Encode, encCore, padCount, b64Encode_eq rest, List.cons_append]

theorem encCore_mem : ∀ (b : List Nat) (c : Char), c ∈ encCore b → ∃ n, c = alpha n
  | [], c => by simp [encCore]
  | [b1], c => by
      intro hc
      simp only [encCore, List.mem_cons, List.not_mem_nil, or_false] at hc
      rcases hc with rfl | rfl <;> exact ⟨_, rfl⟩
  | [b1, b2], c => by
      intro hc
      simp only [encCore, List.mem_cons, List.not_mem_nil, or_false] at hc
      rcases hc with rfl | rfl | rfl <;> exact ⟨_, rfl⟩
  | b1 :: b2 :: b3 :: rest, c => by
      intro hc
      simp only [encCore, List.mem_cons] at hc
      rcases hc with rfl | rfl | rfl | rfl | hc
      · exact ⟨_, rfl⟩
      · exact ⟨_, rfl⟩
      · exact ⟨_, rfl⟩
      · exact ⟨_, rfl⟩
      · exact encCore_mem rest c hc

theorem encCore_len : ∀ b : List Nat,
    ((encCore b).length % 4 = 0 ∧ padCount b = 0) ∨
    ((encCore b).length % 4 = 2 ∧ padCount b = 2) ∨
    ((encCore b).length % 4 = 3 ∧ padCount b = 1)
  | [] => Or.inl ⟨rfl, rfl⟩
  | [_] => Or.inr (Or.inl ⟨rfl, rfl⟩)
  | [_, _] => Or.inr (Or.inr ⟨rfl, rfl⟩)
  | b1 :: b2 :: b3 :: rest => by
      have ih := encCore_len rest
      simp only [encCore, padCount, List.length_cons]
      omega

theorem padFor_encCore (b : List Nat) :
    encCore b ++ padFor (encCore b) = b64Encode b := by
  rcases encCore_len b with ⟨h1, h2⟩ | ⟨h1, h2⟩ | ⟨h1, h2⟩ <;>
    rw [b64Encode_eq, h2] <;> simp [padFor, h1]

theorem dropWhile_eq_self_of_all : ∀ (z : List Char),
    (∀ c ∈ z, c ≠ '=') → z.dropWhile (fun c => c == '=') = z
  | [], _ => rfl
  | c :: t, h => by
      have hc : c ≠ '=' := h c (List.mem_cons_self c t)
      simp [List.dropWhile_cons, hc]

theorem dropWhile_replicate_append : ∀ (k : Nat) (z : List Char),
    (List.replicate k '=' ++ z).dropWhile (fun c => c == '=') =
      z.dropWhile (fun c => c == '=') := by
  intro k
  induction k with
  | zero => intro z; simp
  | succ n ih =>
      intro z
      simp only [List.replicate_succ, List.cons_append, List.dropWhile_cons,
        beq_self_eq_true, if_true]
      exact ih z

theorem trimEqRight_append_pad (x : List Char) (k : Nat)
    (hx : ∀ c ∈ x, c ≠ '=') : trimEqRight (x ++ List.replicate k '=') = x := by
  unfold trimEqRight
  rw [List.reverse_append, List.reverse_replicate, dropWhile_replicate_append,
      dropWhile_eq_self_of_all _ (fun c hc => hx c (List.mem_reverse.mp hc)),
      List.reverse_reverse]

theorem EncodeSegment_eq_encCore (b : List Nat) : EncodeSegment b = encCore b := by
  unfold EncodeSegment
  rw [b64Encode_eq]
  exact trimEqRight_append_pad _ _ (fun c hc => by
    obtain ⟨n, rfl⟩ := encCore_mem b c hc
    exact alpha_ne_eq n)

theorem stripNewlines_eq_self (s : List Char)
    (h : ∀ c ∈ s, c ≠ '\n' ∧ c ≠ '\r') : stripNewlines s = s := by
  unfold stripNewlines
  rw [List.filter_eq_self]
  intro c hc
  simp only [bne_iff_ne, ne_eq, Bool.and_eq_true, decide_eq_true_eq]
  exact ⟨(h c hc).1, (h c hc).2⟩

theorem b64Encode_mem (b : List Nat) (c : Char) (hc : c ∈ b64Encode b) :
    (∃ n, c = alpha n) ∨ c = '=' := by
  rw [b64Encode_eq] at hc
  rcases List.mem_append.mp hc with h | h
  · exact Or.inl (encCore_mem b c h)
  · exact Or.inr (List.eq_of_mem_replicate h)

theorem b64DecodeChunks_encode : ∀ (b : List Nat), (∀ x ∈ b, x < 256) →
    b64DecodeChunks (b64Encode b) = some b
  | [], _ => rfl
  | [b1], h => by
      have hb1 : b1 < 256 := h b1 (by simp)
      have h1 : b1 / 4 < 64 := by omega
      have h2 : b1 % 4 * 16 < 64 := by omega
      simp only [b64Encode, b64DecodeChunks, idx_alpha h1, idx_alpha h2]
      simp only [and_self, if_true, reduceIte, Option.some.injEq, List.cons.injEq, and_true]
      omega
  | [b1, b2], h => by
      have hb1 : b1 < 256 := h b1 (by simp)
      have hb2 : b2 < 256 := h b2 (by simp)
      have h1 : b1 / 4 < 64 := by omega
      have h2 : b1 % 4 * 16 + b2 / 16 < 64 := by omega
      have h3 : b2 % 16 * 4 < 64 := by omega
      simp only [b64Encode, b64DecodeChunks, idx_alpha h1, idx_alpha h2, idx_alpha h3,
        alpha_ne_eq, if_false, reduceIte, Option.some.injEq, List.cons.injEq, and_true]
      constructor <;> omega
  | b1 :: b2 :: b3 :: rest, h => by
      have hb1 : b1 < 256 := h b1 (by simp)
      have hb2 : b2 < 256 := h b2 (by simp)
      have hb3 : b3 < 256 := h b3 (by simp)
      have h1 : b1 / 4 < 64 := by omega
      have h2 : b1 % 4 * 16 + b2 / 16 < 64 := by omega
      have h3 : b2 % 16 * 4 + b3 / 64 < 64 := by omega
      have h4 : b3 % 64 < 64 := by omega
      have ih := b64DecodeChunks_encode rest (fun x hx => h x (by simp [hx]))
      simp only [b64Encode, b64DecodeChunks, idx_alpha h1, idx_alpha h2, idx_alpha h3,
        idx_alpha h4, alpha_ne_eq, if_false, reduceIte, ih, Option.map_some',
        Option.some.injEq, List.cons.injEq, and_true]
      and_intros <;> omega

theorem segment_roundtrip (b : List Nat) (h : ∀ x ∈ b, x < 256) :
    DecodeSegment (EncodeSegment b) = some b := by
  rw [EncodeSegment_eq_encCore]
  unfold DecodeSegment base64URLDecode
  rw [padFor_encCore, stripNewlines_eq_self]
  · exact b64DecodeChunks_encode b h
  · intro c hc
    rcases b64Encode_mem b c hc with ⟨n, rfl⟩ | rfl
    · exact alpha_ne_nl n
    · exact ⟨by decide, by decide⟩

theorem EncodeSegment_no_pad (b : List Nat) : '=' ∉ EncodeSegment b := by
  rw [EncodeSegment_eq_encCore]
  intro hc
  obtain ⟨n, hn⟩ := encCore_mem b '=' hc
  exact alpha_ne_eq n hn.symm

theorem b64Index_pad : b64Index '=' = none := by decide

theorem b64Index_nl : b64Index '\n' = none := by decide

theorem b64Index_cr : b64Index '\r' = none := by decide

theorem isSome_idx_ne (c : Char) (h : (b64Index c).isSome) :
    c ≠ '=' ∧ c ≠ '\n' ∧ c ≠ '\r' := by
  refine ⟨?_, ?_, ?_⟩ <;> rintro rfl <;>
    simp [b64Index_pad, b64Index_nl, b64Index_cr] at h

theorem b64DecodeChunks_bad : ∀ (t : List Char) (ch : Char), ch ∈ t →
    b64Index ch = none → ch ≠ '=' → b64DecodeChunks t = none
  | [], ch => by simp
  | [_], _ => fun _ _ _ => rfl
  | [_, _], _ => fun _ _ _ => rfl
  | [_, _, _], _ => fun _ _ _ => rfl
  | a :: b :: c :: d :: rest, ch => by
      intro hc hidx hne
      simp only [List.mem_cons] at hc
      cases ha : b64Index a with
      | none => simp [b64DecodeChunks, ha]
      | some x =>
        cases hb : b64Index b with
        | none => simp [b64DecodeChunks, ha, hb]
        | some y =>
          have hcha : ch ≠ a := fun h => by rw [h, ha] at hidx; exact Option.noConfusion hidx
          have hchb : ch ≠ b := fun h => by rw [h, hb] at hidx; exact Option.noConfusion hidx
          by_cases hcEq : c = '='
          · subst hcEq
            have hcond : ¬(d = '=' ∧ rest = []) := by
              rintro ⟨rfl, rfl⟩
              rcases hc with rfl | rfl | rfl | rfl | h
              exacts [hcha rfl, hchb rfl, hne rfl, hne rfl, absurd h (List.not_mem_nil ch)]
            simp [b64DecodeChunks, ha, hb, hcond]
          · cases hcIdx : b64Index c with
            | none => simp [b64DecodeChunks, ha, hb, hcEq, hcIdx]
            | some z =>
              have hchc : ch ≠ c := fun h => by
                rw [h, hcIdx] at hidx; exact Option.noConfusion hidx
              by_cases hdEq : d = '='
              · subst hdEq
                have hrest : ch ∈ rest := by
                  rcases hc with rfl | rfl | rfl | rfl | h
                  exacts [absurd rfl hcha, absurd rfl hchb, absurd rfl hchc,
                          absurd rfl hne, h]
                have hrne : rest ≠ [] := by
                  rintro rfl; exact List.not_mem_nil ch hrest
                simp [b64DecodeChunks, ha, hb, hcEq, hcIdx, hrne]
              · cases hdIdx : b64Index d with
                | none => simp [b64DecodeChunks, ha, hb, hcEq, hcIdx, hdEq, hdIdx]
                | some w =>
                  have hchd : ch ≠ d := fun h => by
                    rw [h, hdIdx] at hidx; exact Option.noConfusion hidx
                  have hrest : ch ∈ rest := by
                    rcases hc with rfl | rfl | rfl | rfl | h
                    exacts [absurd rfl hcha, absurd rfl hchb, absurd rfl hchc,
                            absurd rfl hchd, h]
                  have ih := b64DecodeChunks_bad rest ch hrest hidx hne
                  simp [b64DecodeChunks, ha, hb, hcEq, hcIdx, hdEq, hdIdx, ih]

theorem chunksPad_allAlpha : ∀ (s : List Char), (∀ c ∈ s, (b64Index c).isSome) →
    ((b64DecodeChunks (s ++ padFor s)).isSome = true ↔ s.length % 4 ≠ 1)
  | [], _ => by simp [padFor, b64DecodeChunks]
  | [a], h => by
      obtain ⟨x, hx⟩ := Option.isSome_iff_exists.mp (h a (by simp))
      simp [padFor, b64DecodeChunks, hx, b64Index_pad, List.replicate]
  | [a, b], h => by
      obtain ⟨x, hx⟩ := Option.isSome_iff_exists.mp (h a (by simp))
      obtain ⟨y, hy⟩ := Option.isSome_iff_exists.mp (h b (by simp))
      simp [padFor, b64DecodeChunks, hx, hy, List.replicate]
  | [a, b, c], h => by
      obtain ⟨x, hx⟩ := Option.isSome_iff_exists.mp (h a (by simp))
      obtain ⟨y, hy⟩ := Option.isSome_iff_exists.mp (h b (by simp))
      obtain ⟨z, hz⟩ := Option.isSome_iff_exists.mp (h c (by simp))
      have hcne : c ≠ '=' := (isSome_idx_ne c (h c (by simp))).1
      simp [padFor, b64DecodeChunks, hx, hy, hz, hcne, List.replicate]
  | a :: b :: c :: d :: rest, h => by
      obtain ⟨x, hx⟩ := Option.isSome_iff_exists.mp (h a (by simp))
      obtain ⟨y, hy⟩ := Option.isSome_iff_exists.mp (h b (by simp))
      obtain ⟨z, hz⟩ := Option.isSome_iff_exists.mp (h c (by simp))
      obtain ⟨w, hw⟩ := Option.isSome_iff_exists.mp (h d (by simp))
      have hcne : c ≠ '=' := (isSome_idx_ne c (h c (by simp))).1
      have hdne : d ≠ '=' := (isSome_idx_ne d (h d (by simp))).1
      have hlen : (a :: b :: c :: d :: rest).length % 4 = rest.length % 4 := by
        simp only [List.length_cons]; omega
      have hpad : padFor (a :: b :: c :: d :: rest) = padFor rest := by
        unfold padFor; rw [hlen]
      have ih := chunksPad_allAlpha rest (fun e he => h e (by simp [he]))
      rw [hpad, hlen]
      simp only [List.cons_append, b64DecodeChunks, hx, hy, hz, hw, hcne, hdne,
        if_false, reduceIte, Option.isSome_map']
      exact ih

theorem DecodeSegment_allAlpha (s : List Char) (h : ∀ c ∈ s, (b64Index c).isSome) :
    ((DecodeSegment s).isSome = true ↔ s.length % 4 ≠ 1) := by
  unfold DecodeSegment base64URLDecode
  rw [stripNewlines_eq_self]
  · exact chunksPad_allAlpha s h
  · intro c hc
    rcases List.mem_append.mp hc with h1 | h1
    · exact (isSome_idx_ne c (h c h1)).2
    · have hceq : c = '=' := by
        unfold padFor at h1
        split at h1
        · exact List.eq_of_mem_replicate h1
        · exact absurd h1 (List.not_mem_nil c)
      subst hceq; exact ⟨by decide, by decide⟩

theorem DecodeSegment_badChar (s : List Char) (ch : Char) (hc : ch ∈ s)
    (hidx : b64Index ch = none) (hne : ch ≠ '=') (hnl : ch ≠ '\n') (hcr : ch ≠ '\r') :
    DecodeSegment s = none := by
  unfold DecodeSegment base64URLDecode
  apply b64DecodeChunks_bad _ ch _ hidx hne
  unfold stripNewlines
  refine List.mem_filter.mpr ⟨List.mem_append_left _ hc, ?_⟩
  simp [bne_iff_ne, hnl, hcr]

/-! Claim theorems. -/

/-- C3: the segment codec is reversible. For every byte sequence `b`,
`DecodeSegment (EncodeSegment b)` succeeds and returns exactly `b`, and
`EncodeSegment b` never emits the padding character `=`. -/
theorem claim_C3 (b : List Nat) (h : ∀ x ∈ b, x < 256) :
    DecodeSegment (EncodeSegment b) = some b ∧ '=' ∉ EncodeSegment b :=
  ⟨segment_roundtrip b h, EncodeSegment_no_pad b⟩

theorem claim_C3_witness :
    DecodeSegment (EncodeSegment [104, 105]) = some [104, 105] ∧
      '=' ∉ EncodeSegment [104, 105] :=
  claim_C3 [104, 105] (by decide)

/-- C6 counterexample: the claim says `DecodeSegment` fails on every input
containing a character outside the URL-safe base64 alphabet, but the input
consisting of AAAA followed by four LF characters contains the non-alphabet
character LF and still decodes successfully, because the underlying Go
base64 decoder ignores CR and LF. -/
theorem claim_C6_counterexample :
    '\n' ∈ (['A', 'A', 'A', 'A', '\n', '\n', '\n', '\n'] : List Char) ∧
    b64Index '\n' = none ∧
    DecodeSegment ['A', 'A', 'A', 'A', '\n', '\n', '\n', '\n'] = some [0, 0, 0] := by
  refine ⟨by decide, by decide, by decide⟩

/-- C6 (amended): `DecodeSegment` fails on every input containing a
character outside the URL-safe base64 alphabet other than the padding
character `=` and the newline characters LF and CR, which the underlying
decoder ignores; on inputs made only of alphabet characters it re-pads with
`=` to a multiple of four and decodes, succeeding exactly when the re-padded
length is consistent with a base64 encoding, i.e. when the input length is
not congruent to 1 mod 4. -/
theorem claim_C6 (s : List Char) :
    (∀ ch ∈ s, b64Index ch = none → ch ≠ '=' → ch ≠ '\n' → ch ≠ '\r' →
       DecodeSegment s = none) ∧
    ((∀ c ∈ s, (b64Index c).isSome) →
       ((DecodeSegment s).isSome = true ↔ s.length % 4 ≠ 1)) :=
  ⟨fun ch hc h1 h2 h3 h4 => DecodeSegment_badChar s ch hc h1 h2 h3 h4,
   fun h => DecodeSegment_allAlpha s h⟩

theorem claim_C6_witness :
    DecodeSegment ['!'] = none ∧
    ((DecodeSegment ['A', 'B']).isSome = true ↔
      (['A', 'B'] : List Char).length % 4 ≠ 1) :=
  ⟨(claim_C6 ['!']).1 '!' (by decide) (by decide) (by decide) (by decide) (by decide),
   (claim_C6 ['A', 'B']).2 (by decide)⟩

/-- C1: with a byte-slice key and the bound hash available, HMAC `Sign`
succeeds and `Verify` accepts its output; in general `Verify` succeeds
exactly when the decoded signature equals the recomputed MAC of the signing
string under the key, and fails with `SignatureInvalid` when the signature
decodes to anything else. -/
theorem claim_C1 (m : SigningMethodHMAC) (s : List Char) (kb : List Nat)
    (hav : m.hashAvailable = true) (hbytes : ∀ x ∈ m.mac kb s, x < 256) :
    (m.Sign s (Key.bytes kb)).2 = none ∧
    m.Verify s (m.Sign s (Key.bytes kb)).1 (Key.bytes kb) = none ∧
    (∀ sig, m.Verify s sig (Key.bytes kb) = none ↔
       DecodeSegment sig = some (m.mac kb s)) ∧
    (∀ sig dec, DecodeSegment sig = some dec → dec ≠ m.mac kb s →
       m.Verify s sig (Key.bytes kb) = some GoError.signatureInvalid) := by
  have hsign : m.Sign s (Key.bytes kb) = (EncodeSegment (m.mac kb s), none) := by
    simp [SigningMethodHMAC.Sign, hav]
  refine ⟨by rw [hsign], ?_, ?_, ?_⟩
  · rw [hsign]
    simp [SigningMethodHMAC.Verify, segment_roundtrip _ hbytes, hav]
  · intro sig
    unfold SigningMethodHMAC.Verify
    cases hdec : DecodeSegment sig with
    | none => simp
    | some dec =>
        simp only [hav, Bool.not_true, Bool.false_eq_true, if_false, reduceIte,
          Option.some.injEq]
        by_cases hEq : dec = m.mac kb s
        · subst hEq; simp
        · simp [hEq, Ne.symm hEq]
  · intro sig dec hdec hne
    unfold SigningMethodHMAC.Verify
    rw [hdec]
    simp [hav, hne]

theorem claim_C1_witness :
    (hmacEx.Sign ['a'] (Key.bytes [9])).2 = none ∧
    hmacEx.Verify ['a'] (hmacEx.Sign ['a'] (Key.bytes [9])).1 (Key.bytes [9]) = none :=
  ⟨(claim_C1 hmacEx ['a'] [9] rfl (by decide)).1,
   (claim_C1 hmacEx ['a'] [9] rfl (by decide)).2.1⟩

/-- C5: with any key value that is not a byte slice, HMAC `Sign` returns the
empty string together with `InvalidKeyType`, and `Verify` returns
`InvalidKeyType`, regardless of the signing input and signature text. -/
theorem claim_C5 (m : SigningMethodHMAC) (tag : Nat) (s sig : List Char) :
    m.Sign s (Key.other tag) = ([], some GoError.invalidKeyType) ∧
    m.Verify s sig (Key.other tag) = some GoError.invalidKeyType :=
  ⟨rfl, rfl⟩

/-- C9: in HMAC `Verify` the key-type check precedes signature decoding:
with a non-byte-slice key, `Verify` returns `InvalidKeyType` even when the
signature text does not decode. -/
theorem claim_C9 (m : SigningMethodHMAC) (tag : Nat) (s sig : List Char)
    (_hdec : DecodeSegment sig = none) :
    m.Verify s sig (Key.other tag) = some GoError.invalidKeyType := rfl

theorem claim_C9_witness :
    hmacEx.Verify ['a'] ['!'] (Key.other 0) = some GoError.invalidKeyType :=
  claim_C9 hmacEx 0 ['a'] ['!'] (by decide)

/-- C2: the temporal checks with claim value 0 return the negation of the
required flag; otherwise the expiration check passes iff now ≤ claim and
the issued-at and not-before checks pass iff now ≥ claim. Consequently
exp = now passes the expiration check while exp = now - 1 (for clock
values where now - 1 is not the unset value 0) fails it and sets the
Expired bit in Valid(). -/
theorem claim_C2 (v now : Int) (req : Bool) (hv : v ≠ 0) (hnow : now ≠ 1) :
    (verifyExp 0 now req = !req ∧ verifyIat 0 now req = !req ∧
       verifyNbf 0 now req = !req) ∧
    (verifyExp v now req = true ↔ now ≤ v) ∧
    (verifyIat v now req = true ↔ now ≥ v) ∧
    (verifyNbf v now req = true ↔ now ≥ v) ∧
    verifyExp now now false = true ∧
    verifyExp (now - 1) now false = false ∧
    (∃ e, StandardClaims.Valid ⟨"", now - 1, "", 0, "", 0, ""⟩ now = some e ∧
       e.Errors &&& ValidationErrorExpired ≠ 0) := by
  have hsub : now - 1 ≠ 0 := by omega
  have hfail : verifyExp (now - 1) now false = false := by
    simp only [verifyExp, hsub, if_false, reduceIte, decide_eq_false_iff_not]
    omega
  refine ⟨⟨by simp [verifyExp], by simp [verifyIat], by simp [verifyNbf]⟩,
    by simp [verifyExp, hv], by simp [verifyIat, hv], by simp [verifyNbf, hv],
    ?_, hfail, ?_⟩
  · unfold verifyExp
    split
    · rfl
    · simp
  · refine ⟨⟨some (Cause.expiredBy (now - (now - 1))), ValidationErrorExpired, ""⟩,
      ?_, ?_⟩
    · simp [StandardClaims.Valid, StandardClaims.VerifyExpiresAt,
        StandardClaims.VerifyIssuedAt, StandardClaims.VerifyNotBefore, hfail,
        verifyIat, verifyNbf, ValidationError.valid, ValidationErrorExpired]
    · show ValidationErrorExpired &&& ValidationErrorExpired ≠ 0
      decide

theorem claim_C2_witness :
    verifyExp ((100 : Int) - 1) 100 false = false :=
  (claim_C2 5 100 false (by decide) (by decide)).2.2.2.2.2.1

/-- C4: when Valid() finds several failing checks, the returned error has
the corresponding bit set for every failing check, but Inner holds only the
message of the last failing check in evaluation order (expiration,
issued-at, not-before); Valid() returns nil exactly when no check fails,
i.e. no bit is set. -/
theorem claim_C4 (c : StandardClaims) (now : Int) :
    (c.Valid now = none ↔
      (verifyExp c.ExpiresAt now false = true ∧
       verifyIat c.IssuedAt now false = true ∧
       verifyNbf c.NotBefore now false = true)) ∧
    (∀ e, c.Valid now = some e →
      ((e.Errors &&& ValidationErrorExpired ≠ 0 ↔
          verifyExp c.ExpiresAt now false = false) ∧
       (e.Errors &&& ValidationErrorIssuedAt ≠ 0 ↔
          verifyIat c.IssuedAt now false = false) ∧
       (e.Errors &&& ValidationErrorNotValidYet ≠ 0 ↔
          verifyNbf c.NotBefore now false = false) ∧
       e.Inner = (if verifyNbf c.NotBefore now false = false then
                    some Cause.notValidYet
                  else if verifyIat c.IssuedAt now false = false then
                    some Cause.usedBeforeIssued
                  else some (Cause.expiredBy (now - c.ExpiresAt))))) := by
  cases hexp : verifyExp c.ExpiresAt now false <;>
    cases hiat : verifyIat c.IssuedAt now false <;>
      cases hnbf : verifyNbf c.NotBefore now false <;>
        simp [StandardClaims.Valid, StandardClaims.VerifyExpiresAt,
          StandardClaims.VerifyIssuedAt, StandardClaims.VerifyNotBefore,
          hexp, hiat, hnbf, ValidationError.valid, ValidationErrorExpired,
          ValidationErrorIssuedAt, ValidationErrorNotValidYet] <;> decide

theorem claim_C4_witness :
    (vErrEx.Errors &&& ValidationErrorExpired ≠ 0 ↔
       verifyExp claimsEx.ExpiresAt 100 false = false) ∧
    (vErrEx.Errors &&& ValidationErrorIssuedAt ≠ 0 ↔
       verifyIat claimsEx.IssuedAt 100 false = false) ∧
    (vErrEx.Errors &&& ValidationErrorNotValidYet ≠ 0 ↔
       verifyNbf claimsEx.NotBefore 100 false = false) ∧
    vErrEx.Inner = (if verifyNbf claimsEx.NotBefore 100 false = false then
                      some Cause.notValidYet
                    else if verifyIat claimsEx.IssuedAt 100 false = false then
                      some Cause.usedBeforeIssued
                    else some (Cause.expiredBy (100 - claimsEx.ExpiresAt))) :=
  (claim_C4 claimsEx 100).2 vErrEx (by decide)

/-- C8: a standard claim set with ExpiresAt, IssuedAt and NotBefore all at
the unset value 0 passes Valid() with a nil error for every value of the
injected clock. -/
theorem claim_C8 (aud id iss sub : String) (now : Int) :
    StandardClaims.Valid ⟨aud, 0, id, 0, iss, 0, sub⟩ now = none := by
  simp [StandardClaims.Valid, StandardClaims.VerifyExpiresAt,
    StandardClaims.VerifyIssuedAt, StandardClaims.VerifyNotBefore,
    verifyExp, verifyIat, verifyNbf, ValidationError.valid]

/-- C10: Valid() only ever sets the Expired, IssuedAt and NotValidYet bits
and never inspects Audience, Issuer, Subject or Id: its result is the same
for any values of the identity claims, it returns nil whenever the three
temporal checks pass, and the identity claims are checked only through the
explicit VerifyAudience/VerifyIssuer methods. -/
theorem claim_C10 (ev iv nv now : Int) (a1 i1 s1 j1 a2 i2 s2 j2 : String) :
    StandardClaims.Valid ⟨a1, ev, j1, iv, i1, nv, s1⟩ now =
      StandardClaims.Valid ⟨a2, ev, j2, iv, i2, nv, s2⟩ now ∧
    (∀ e, StandardClaims.Valid ⟨a1, ev, j1, iv, i1, nv, s1⟩ now = some e →
       e.Errors &&& (ValidationErrorExpired ||| ValidationErrorIssuedAt |||
         ValidationErrorNotValidYet) = e.Errors) ∧
    (verifyExp ev now false = true → verifyIat iv now false = true →
       verifyNbf nv now false = true →
       StandardClaims.Valid ⟨a1, ev, j1, iv, i1, nv, s1⟩ now = none) ∧
    (∀ cmp req, StandardClaims.VerifyAudience ⟨a1, ev, j1, iv, i1, nv, s1⟩ cmp req =
       verifyAud a1 cmp req) ∧
    (∀ cmp req, StandardClaims.VerifyIssuer ⟨a1, ev, j1, iv, i1, nv, s1⟩ cmp req =
       verifyIss i1 cmp req) := by
  refine ⟨?_, ?_, ?_, fun cmp req => rfl, fun cmp req => rfl⟩ <;>
    cases hexp : verifyExp ev now false <;>
      cases hiat : verifyIat iv now false <;>
        cases hnbf : verifyNbf nv now false <;>
          simp [StandardClaims.Valid, StandardClaims.VerifyExpiresAt,
            StandardClaims.VerifyIssuedAt, StandardClaims.VerifyNotBefore,
            hexp, hiat, hnbf, ValidationError.valid, ValidationErrorExpired,
            ValidationErrorIssuedAt, ValidationErrorNotValidYet] <;> decide

theorem claim_C10_witness :
    vErrExpOnly.Errors &&& (ValidationErrorExpired ||| ValidationErrorIssuedAt |||
      ValidationErrorNotValidYet) = vErrExpOnly.Errors :=
  (claim_C10 50 0 0 100 "a" "i" "s" "j" "b" "x" "y" "z").2.1 vErrExpOnly (by decide)

/-- C7: whenever SigningString and the bound method's Sign both succeed,
SignedString returns the signing string joined to the signature with a dot;
if either step fails, SignedString returns exactly that step's error with
an empty result, and it has no failure modes of its own. -/
theorem claim_C7 (t : Token) (key : Key) :
    (t.SigningString.2 = none → (t.Method.sign t.SigningString.1 key).2 = none →
       t.SignedString key =
         (t.SigningString.1 ++ '.' :: (t.Method.sign t.SigningString.1 key).1, none)) ∧
    (∀ e, t.SigningString.2 = some e → t.SignedString key = ([], some e)) ∧
    (∀ e, t.SigningString.2 = none → (t.Method.sign t.SigningString.1 key).2 = some e →
       t.SignedString key = ([], some e)) ∧
    ((t.SignedString key).2 = none ↔
       (t.SigningString.2 = none ∧ (t.Method.sign t.SigningString.1 key).2 = none)) := by
  unfold Token.SignedString
  rcases hss : t.SigningString with ⟨sstr, e1⟩
  cases e1 with
  | some e =>
      simp
  | none =>
      rcases hsg : t.Method.sign sstr key with ⟨sig, e2⟩
      cases e2 with
      | some e => simp [hsg]
      | none => simp [hsg]

theorem claim_C7_witness :
    tokenEx.SignedString (Key.bytes []) =
      (tokenEx.SigningString.1 ++ '.' ::
        (tokenEx.Method.sign tokenEx.SigningString.1 (Key.bytes [])).1, none) :=
  (claim_C7 tokenEx (Key.bytes [])).1 rfl rfl

end JwtGo
